import Mathlib

/-
Verification of the secure-deletion subsystem of QRConnect
(src/qr_generator.py): the `SecureFileEraser.secure_erase` 7-pass VSITR
overwrite and the `AutoEraseTimer` that schedules it.

The Python code is shallowly embedded:
  * the filesystem status of the target path is a `PathStatus`;
  * `secure_erase` is modelled as the sequence of I/O events it issues
    (stat, per-pass open/write/flush/fsync, final unlink), executed
    against an oracle that says which fallible operation succeeds; the
    outer `try/except Exception: return False` of the source makes the
    caller-visible result a `Bool`;
  * `AutoEraseTimer` is a record of the fields of the Python object
    (`timer`, `cancelled`, plus its non-reentrant `threading.Lock`);
    each method is a function returning `Option` state, where `none`
    means the calling thread blocks forever on the lock.
-/

/-- Filesystem status of a path as observable through `pathlib`.
`symlinkToRegular` / `symlinkToDirectory` are symbolic links whose
resolved target is a regular file resp. a directory; `brokenSymlink` is
a link whose target does not exist. -/
inductive PathStatus where
  | missing
  | regular (size : Nat)
  | directory
  | symlinkToRegular (size : Nat)
  | symlinkToDirectory
  | brokenSymlink
deriving DecidableEq, Repr

/-- Embeds `filepath.exists()` (line 81).  `pathlib.Path.exists` follows
symbolic links, so it is true for a link whose target exists and false
for a broken link. -/
def pathExists : PathStatus → Bool
  | PathStatus.missing => false
  | PathStatus.brokenSymlink => false
  | _ => true

/-- Embeds `filepath.is_file()` (line 81).  `pathlib.Path.is_file`
follows symbolic links: it returns true for a regular file and also for
a symbolic link pointing to a regular file. -/
def pathIsFile : PathStatus → Bool
  | PathStatus.regular _ => true
  | PathStatus.symlinkToRegular _ => true
  | _ => false

/-- Embeds `filepath.stat().st_size` (line 84); `stat` follows the link,
so for a symlink it is the target's size.  Unused for non-files. -/
def statSize : PathStatus → Nat
  | PathStatus.regular s => s
  | PathStatus.symlinkToRegular s => s
  | _ => 0

/-- `SecureFileEraser.VSITR_PASSES` (line 67). -/
def VSITR_PASSES : Nat := 7

/-- `SecureFileEraser.VSITR_PATTERNS` (lines 68-76): the seven one-byte
patterns, as byte values. -/
def VSITR_PATTERNS : List Nat := [0x00, 0xFF, 0x00, 0xFF, 0x00, 0xFF, 0xAA]

/-- `VSITR_PATTERNS[pass_num]` (line 94). -/
def patternAt (pass_num : Nat) : Nat := VSITR_PATTERNS.getD pass_num 0

/-- `chunk_size = 65536` (line 99). -/
def chunk_size : Nat := 65536

/-- The successive values of `write_size = min(chunk_size, remaining)`
produced by the while loop of lines 100-105, starting from
`remaining = file_size`.  The first argument is fuel; every iteration
subtracts `min chunk_size remaining ≥ 1`, so fuel `remaining` always
suffices (see `chunkSizesAux_flatten_replicate`). -/
def chunkSizesAux : Nat → Nat → List Nat
  | 0, _ => []
  | fuel + 1, remaining =>
    if remaining = 0 then []
    else
      min chunk_size remaining ::
        chunkSizesAux fuel (remaining - min chunk_size remaining)

/-- Chunk sizes written by one pass over a file of `file_size` bytes. -/
def chunkSizes (file_size : Nat) : List Nat := chunkSizesAux file_size file_size

/-- One observable I/O operation of `secure_erase`, tagged with the pass
it belongs to where applicable. -/
inductive Ev where
  | stat : Ev
  | openRW (pass_num : Nat) : Ev
  | write (pass_num : Nat) (data : List Nat) : Ev
  | flush (pass_num : Nat) : Ev
  | fsync (pass_num : Nat) : Ev
  | unlink : Ev
deriving DecidableEq, Repr

/-- The I/O operations of one pass (lines 96-108): open for read-write,
the chunked writes — each chunk is `pattern * write_size`, i.e.
`write_size` copies of the pass's pattern byte — then `f.flush()` and
`os.fsync(f.fileno())`. -/
def passBody (pass_num pattern file_size : Nat) : List Ev :=
  Ev.openRW pass_num ::
    ((chunkSizes file_size).map
        (fun w => Ev.write pass_num (List.replicate w pattern)) ++
      [Ev.flush pass_num, Ev.fsync pass_num])

/-- The operations up to and including the last pass: the single
`stat` of line 84 followed by the seven pass bodies of the for loop of
line 93 (the size measured once at entry is used by every pass). -/
def bodyEvents (file_size : Nat) : List Ev :=
  Ev.stat ::
    ((List.range VSITR_PASSES).map
        (fun p => passBody p (patternAt p) file_size)).flatten

/-- All fallible operations of a complete `secure_erase` run: the pass
bodies followed by `filepath.unlink()` (line 112). -/
def eraseEvents (file_size : Nat) : List Ev :=
  bodyEvents file_size ++ [Ev.unlink]

/-- Executes a list of fallible operations left to right.  `oracle n`
says whether the `n`-th operation of the call succeeds; the first
failing operation raises, which the `except Exception` of line 117
turns into the overall result `false`, with no later operation
performed. -/
def runOps (oracle : Nat → Bool) : List Ev → Nat → Bool × List Ev
  | [], _ => (true, [])
  | e :: rest, n =>
    if oracle n then
      let r := runOps oracle rest (n + 1)
      (r.1, e :: r.2)
    else
      (false, [])

/-- `SecureFileEraser.secure_erase` (lines 78-119): the guard of line 81
returns `False` before any I/O when the path does not resolve to a
regular file; otherwise the measured-once size drives the seven passes
and the final unlink, any exception yielding `False`.  The result is
the returned `Bool` paired with the trace of completed operations. -/
def secure_erase (st : PathStatus) (oracle : Nat → Bool) : Bool × List Ev :=
  if pathExists st && pathIsFile st then
    runOps oracle (eraseEvents (statSize st)) 0
  else
    (false, [])

/-- The oracle under which every I/O operation succeeds. -/
def allTrue : Nat → Bool := fun _ => true

/-- Whether the path still exists after the call: it existed before and
no successful `unlink` was performed on it. -/
def existsAfter (st : PathStatus) (oracle : Nat → Bool) : Bool :=
  pathExists st && ! decide (Ev.unlink ∈ (secure_erase st oracle).2)

/-- The data of the write events of pass `p`, in order. -/
def writesOf (p : Nat) (tr : List Ev) : List (List Nat) :=
  tr.filterMap fun e =>
    match e with
    | Ev.write q d => if q = p then some d else none
    | _ => none

/-- Position rank of an event: events of earlier phases get smaller
ranks, and within a pass open < write < flush < fsync.  The trace of
`secure_erase` is sorted by rank. -/
def evRank : Ev → Nat
  | Ev.stat => 0
  | Ev.openRW p => 10 * p + 11
  | Ev.write p _ => 10 * p + 12
  | Ev.flush p => 10 * p + 13
  | Ev.fsync p => 10 * p + 14
  | Ev.unlink => 1000

/-- The pass an event belongs to, if any. -/
def evPassOf : Ev → Option Nat
  | Ev.openRW p => some p
  | Ev.write p _ => some p
  | Ev.flush p => some p
  | Ev.fsync p => some p
  | _ => none

/-- Auxiliary: with enough fuel, concatenating the chunk writes of one
pass yields exactly `remaining` copies of the pattern byte. -/
lemma chunkSizesAux_flatten_replicate (b : Nat) :
    ∀ fuel remaining, remaining ≤ fuel →
      ((chunkSizesAux fuel remaining).map (fun w => List.replicate w b)).flatten =
        List.replicate remaining b := by
  intro fuel
  induction fuel with
  | zero =>
    intro r hr
    have : r = 0 := by omega
    subst this
    rfl
  | succ n ih =>
    intro r hr
    by_cases h : r = 0
    · subst h
      simp [chunkSizesAux]
    · have hmin1 : 1 ≤ min chunk_size r := by
        have h1 : 1 ≤ r := Nat.one_le_iff_ne_zero.mpr h
        have h2 : (1 : Nat) ≤ chunk_size := by norm_num [chunk_size]
        exact le_min h2 h1
      have hminr : min chunk_size r ≤ r := Nat.min_le_right _ _
      have hle : r - min chunk_size r ≤ n := by omega
      simp only [chunkSizesAux, if_neg h, List.map_cons, List.flatten_cons]
      rw [ih _ hle, ← List.replicate_add]
      congr 1
      omega

/-- The chunk writes of one pass over `file_size` bytes concatenate to
`file_size` copies of the pattern byte. -/
lemma chunkSizes_flatten_replicate (b file_size : Nat) :
    ((chunkSizes file_size).map (fun w => List.replicate w b)).flatten =
      List.replicate file_size b :=
  chunkSizesAux_flatten_replicate b file_size file_size le_rfl

/-- Under the all-success oracle every operation completes. -/
lemma runOps_allTrue (l : List Ev) : ∀ n, runOps allTrue l n = (true, l) := by
  induction l with
  | nil => intro n; rfl
  | cons e rest ih =>
    intro n
    simp [runOps, allTrue, ih]

/-- The executed operations are always a sublist of the intended ones. -/
lemma runOps_sublist (oracle : Nat → Bool) (l : List Ev) :
    ∀ n, ((runOps oracle l n).2).Sublist l := by
  induction l with
  | nil => intro n; simp [runOps]
  | cons e rest ih =>
    intro n
    by_cases h : oracle n = true
    · simp only [runOps, h, if_true]
      exact List.Sublist.cons₂ e (ih (n + 1))
    · simp only [runOps, h, if_false]
      exact List.nil_sublist _

/-- The call succeeds exactly when every operation succeeds. -/
lemma runOps_fst_true_iff (oracle : Nat → Bool) (l : List Ev) :
    ∀ n, (runOps oracle l n).1 = true ↔ ∀ i, i < l.length → oracle (n + i) = true := by
  induction l with
  | nil => intro n; simp [runOps]
  | cons e rest ih =>
    intro n
    by_cases h : oracle n = true
    · simp only [runOps, h, if_true]
      rw [ih (n + 1)]
      constructor
      · intro hall i hi
        cases i with
        | zero => simpa using h
        | succ j =>
          have hj : j < rest.length := by simpa using hi
          have := hall j hj
          have harith : n + 1 + j = n + (j + 1) := by omega
          rw [harith] at this
          exact this
      · intro hall i hi
        have harith : n + 1 + i = n + (i + 1) := by omega
        rw [harith]
        exact hall (i + 1) (by simpa using hi)
    · simp only [runOps, h, if_false]
      constructor
      · intro hfalse
        exact absurd hfalse (by simp)
      · intro hall
        have h0 := hall 0 (by simp)
        simp only [Nat.add_zero] at h0
        exact absurd h0 h

/-- A successful call executed the whole operation list. -/
lemma runOps_true_snd (oracle : Nat → Bool) (l : List Ev) :
    ∀ n, (runOps oracle l n).1 = true → (runOps oracle l n).2 = l := by
  induction l with
  | nil => intro n _; rfl
  | cons e rest ih =>
    intro n htrue
    by_cases h : oracle n = true
    · simp only [runOps, h, if_true] at htrue ⊢
      rw [ih (n + 1) htrue]
    · have h2 : oracle n = false := by simpa using h
      simp only [runOps, h2, if_false] at htrue
      exact absurd htrue (by simp)

/-- If the first `j` operations succeed and the `j`-th fails, the call
returns `false` having executed exactly the first `j` operations. -/
lemma runOps_fail_eq (oracle : Nat → Bool) :
    ∀ (l : List Ev) (n j : Nat), j < l.length →
      (∀ m, m < j → oracle (n + m) = true) → oracle (n + j) = false →
      runOps oracle l n = (false, l.take j) := by
  intro l
  induction l with
  | nil =>
    intro n j hj
    simp at hj
  | cons e rest ih =>
    intro n j hj hall hfail
    cases j with
    | zero =>
      have h0 : oracle n = false := by simpa using hfail
      simp [runOps, h0]
    | succ k =>
      have h0 : oracle n = true := by
        have := hall 0 (by omega)
        simpa using this
      have hallk : ∀ m, m < k → oracle (n + 1 + m) = true := by
        intro m hm
        have := hall (m + 1) (by omega)
        have harith : n + (m + 1) = n + 1 + m := by omega
        rw [harith] at this
        exact this
      have hfailk : oracle (n + 1 + k) = false := by
        have harith : n + (k + 1) = n + 1 + k := by omega
        rw [harith] at hfail
        exact hfail
      have hrec := ih (n + 1) k (by simpa using hj) hallk hfailk
      simp only [runOps, h0, if_true, hrec, List.take_succ_cons]

/-- A relation that holds of every pair holds pairwise on any list. -/
lemma pairwise_of_total {α : Type} {R : α → α → Prop} (h : ∀ a b, R a b) :
    ∀ l : List α, List.Pairwise R l
  | [] => List.Pairwise.nil
  | a :: l => List.Pairwise.cons (fun b _ => h a b) (pairwise_of_total h l)

/-- Every event of pass `p` has rank between `10 p + 11` and `10 p + 14`. -/
lemma evRank_mem_passBody {e : Ev} {p pat S : Nat} (h : e ∈ passBody p pat S) :
    10 * p + 11 ≤ evRank e ∧ evRank e ≤ 10 * p + 14 := by
  simp only [passBody, List.mem_cons, List.mem_append, List.mem_map,
    List.not_mem_nil, or_false] at h
  rcases h with rfl | hrest
  · simp [evRank]
  rcases hrest with ⟨w, _, rfl⟩ | rfl | rfl
  · simp [evRank]
  · simp [evRank]
  · simp [evRank]

/-- The events of one pass occur in rank order. -/
lemma pairwise_rank_passBody (p pat S : Nat) :
    List.Pairwise (fun a b => evRank a ≤ evRank b) (passBody p pat S) := by
  unfold passBody
  rw [List.pairwise_cons]
  constructor
  · intro b hb
    have hb2 : b ∈ passBody p pat S := by
      simp only [passBody, List.mem_cons]
      exact Or.inr hb
    have hlow := (evRank_mem_passBody hb2).1
    have hopen : evRank (Ev.openRW p) = 10 * p + 11 := rfl
    omega
  · rw [List.pairwise_append]
    refine ⟨?_, ?_, ?_⟩
    · rw [List.pairwise_map]
      exact pairwise_of_total (fun a b => by simp [evRank]) _
    · rw [List.pairwise_cons]
      constructor
      · intro b hb
        simp only [List.mem_cons, List.not_mem_nil, or_false] at hb
        subst hb
        simp [evRank]
      · exact List.pairwise_singleton _ _
    · intro a ha b hb
      simp only [List.mem_map] at ha
      obtain ⟨w, _, rfl⟩ := ha
      simp only [List.mem_cons, List.not_mem_nil, or_false] at hb
      rcases hb with rfl | rfl
      · simp [evRank]
      · simp [evRank]

/-- Every event of the pass bodies has rank at most 84, hence below the
rank of `unlink`. -/
lemma evRank_le_of_mem_bodyEvents {e : Ev} {S : Nat} (h : e ∈ bodyEvents S) :
    evRank e ≤ 84 := by
  simp only [bodyEvents, List.mem_cons, List.mem_flatten, List.mem_map] at h
  rcases h with rfl | ⟨l, ⟨p, hp, rfl⟩, hel⟩
  · simp [evRank]
  · have hb := (evRank_mem_passBody hel).2
    simp only [List.mem_range, VSITR_PASSES] at hp
    omega

/-- The full operation sequence of `secure_erase` is sorted by rank:
pass `p` strictly precedes pass `p + 1`, and within a pass the order is
open, writes, flush, fsync; `stat` comes first and `unlink` last. -/
lemma pairwise_rank_eraseEvents (S : Nat) :
    List.Pairwise (fun a b => evRank a ≤ evRank b) (eraseEvents S) := by
  unfold eraseEvents
  rw [List.pairwise_append]
  refine ⟨?_, List.pairwise_singleton _ _, ?_⟩
  · unfold bodyEvents
    rw [List.pairwise_cons]
    constructor
    · intro b _
      have : evRank Ev.stat = 0 := rfl
      omega
    · rw [List.pairwise_flatten]
      constructor
      · intro l hl
        simp only [List.mem_map] at hl
        obtain ⟨p, _, rfl⟩ := hl
        exact pairwise_rank_passBody p (patternAt p) S
      · rw [List.pairwise_map]
        refine List.Pairwise.imp ?_ (List.pairwise_lt_range VSITR_PASSES)
        intro p q hpq x hx y hy
        have h1 := (evRank_mem_passBody hx).2
        have h2 := (evRank_mem_passBody hy).1
        omega
  · intro a ha b hb
    simp only [List.mem_cons, List.not_mem_nil, or_false] at hb
    subst hb
    have h1 := evRank_le_of_mem_bodyEvents ha
    have h2 : evRank Ev.unlink = 1000 := rfl
    omega

/-- Events carrying a pass index have rank determined by it. -/
lemma evPassOf_rank {e : Ev} {k : Nat} (h : evPassOf e = some k) :
    10 * k + 11 ≤ evRank e ∧ evRank e ≤ 10 * k + 14 := by
  cases e with
  | stat => simp [evPassOf] at h
  | openRW p => simp only [evPassOf, Option.some.injEq] at h; subst h; simp [evRank]
  | write p d => simp only [evPassOf, Option.some.injEq] at h; subst h; simp [evRank]
  | flush p => simp only [evPassOf, Option.some.injEq] at h; subst h; simp [evRank]
  | fsync p => simp only [evPassOf, Option.some.injEq] at h; subst h; simp [evRank]
  | unlink => simp [evPassOf] at h

/-- One pass body contains the fsync of pass `i` exactly when it is pass
`i`, and then exactly once. -/
lemma count_fsync_passBody (i p pat S : Nat) :
    (passBody p pat S).count (Ev.fsync i) = if p = i then 1 else 0 := by
  have hmap : ((chunkSizes S).map
      (fun w => Ev.write p (List.replicate w pat))).count (Ev.fsync i) = 0 := by
    rw [List.count_eq_zero]
    intro hmem
    simp only [List.mem_map] at hmem
    obtain ⟨w, _, hw⟩ := hmem
    exact absurd hw (by simp)
  simp only [passBody, List.count_cons, List.count_append, hmap, List.count_nil]
  by_cases h : p = i
  · subst h
    simp
  · simp [h, beq_iff_eq]

/-- Summing an indicator over `range n` gives 1 when the index is in
range. -/
lemma sum_indicator_range (i : Nat) :
    ∀ n, i < n → ((List.range n).map (fun p => if p = i then 1 else 0)).sum = 1 := by
  intro n
  induction n with
  | zero => intro h; omega
  | succ m ih =>
    intro hi
    rw [List.range_succ, List.map_append, List.sum_append]
    by_cases h : i = m
    · subst h
      have hzero : ((List.range i).map (fun p => if p = i then 1 else 0)).sum = 0 := by
        apply List.sum_eq_zero
        intro x hx
        simp only [List.mem_map, List.mem_range] at hx
        obtain ⟨q, hq, rfl⟩ := hx
        simp [Nat.ne_of_lt hq]
      simp [hzero]
    · have him : i < m := by omega
      rw [ih him]
      have hmi : m ≠ i := fun hmi => h hmi.symm
      simp [hmi]

/-- Each pass performs exactly one durable sync: `Ev.fsync i` occurs
exactly once in the complete operation sequence, for `i < 7`. -/
lemma count_fsync_eraseEvents {i : Nat} (hi : i < VSITR_PASSES) (S : Nat) :
    (eraseEvents S).count (Ev.fsync i) = 1 := by
  unfold eraseEvents bodyEvents
  rw [List.count_append, List.count_cons, List.count_flatten, List.map_map]
  have hmap : (List.map (List.count (Ev.fsync i) ∘ fun p => passBody p (patternAt p) S)
      (List.range VSITR_PASSES)) =
      (List.range VSITR_PASSES).map (fun p => if p = i then 1 else 0) := by
    apply List.map_congr_left
    intro p _
    exact count_fsync_passBody i p (patternAt p) S
  rw [hmap, sum_indicator_range i VSITR_PASSES hi]
  simp

/-- `writesOf` distributes over append. -/
lemma writesOf_append (p : Nat) (l1 l2 : List Ev) :
    writesOf p (l1 ++ l2) = writesOf p l1 ++ writesOf p l2 := by
  unfold writesOf
  exact List.filterMap_append l1 l2 _

/-- `writesOf` distributes over flatten. -/
lemma writesOf_flatten (p : Nat) (L : List (List Ev)) :
    writesOf p L.flatten = (L.map (writesOf p)).flatten := by
  induction L with
  | nil => rfl
  | cons l ls ih =>
    simp only [List.flatten_cons, List.map_cons]
    rw [writesOf_append, ih]

/-- A leading `stat` contributes no writes. -/
lemma writesOf_cons_stat (p : Nat) (tr : List Ev) :
    writesOf p (Ev.stat :: tr) = writesOf p tr := by
  simp [writesOf, List.filterMap_cons]

/-- Extracting the write data from the write events of a pass recovers
the written chunks. -/
lemma filterMap_write_map (p pat : Nat) (ws : List Nat) :
    List.filterMap
      (fun e => match e with
        | Ev.write q d => if q = p then some d else none
        | _ => none)
      (ws.map (fun w => Ev.write p (List.replicate w pat))) =
      ws.map (fun w => List.replicate w pat) := by
  induction ws with
  | nil => rfl
  | cons w ws ih =>
    simp only [List.map_cons, List.filterMap_cons, ih]
    simp

/-- The writes a pass performs on its own behalf are its chunk writes. -/
lemma writesOf_passBody_self (p pat S : Nat) :
    writesOf p (passBody p pat S) = (chunkSizes S).map (fun w => List.replicate w pat) := by
  unfold passBody writesOf
  rw [List.filterMap_cons]
  simp only [List.filterMap_append, filterMap_write_map]
  simp [List.filterMap_cons]

/-- A pass performs no writes on behalf of another pass. -/
lemma writesOf_passBody_ne {p q : Nat} (h : q ≠ p) (pat S : Nat) :
    writesOf p (passBody q pat S) = [] := by
  unfold writesOf
  rw [List.filterMap_eq_nil_iff]
  intro e he
  simp only [passBody, List.mem_cons, List.mem_append, List.mem_map,
    List.not_mem_nil, or_false] at he
  rcases he with rfl | ⟨w, _, rfl⟩ | rfl | rfl
  · rfl
  · simp [h]
  · rfl
  · rfl

/-- Flattening a mapped range in which all but one entry is empty
yields that entry. -/
lemma flatten_map_range_single {α : Type} (i : Nat) (f : Nat → List α)
    (hne : ∀ q, q ≠ i → f q = []) :
    ∀ n, i < n → ((List.range n).map f).flatten = f i := by
  intro n
  induction n with
  | zero => intro h; omega
  | succ m ih =>
    intro hi
    rw [List.range_succ, List.map_append, List.flatten_append]
    by_cases h : i = m
    · subst h
      have hnil : ((List.range i).map f).flatten = [] := by
        rw [List.flatten_eq_nil_iff]
        intro l hl
        simp only [List.mem_map, List.mem_range] at hl
        obtain ⟨q, hq, rfl⟩ := hl
        exact hne q (by omega)
      simp [hnil]
    · have him : i < m := by omega
      rw [ih him]
      have hmnil : f m = [] := hne m (fun hmi => h hmi.symm)
      simp [hmnil]

/-- The writes of pass `p` in a complete run are the chunk writes of
pass `p` with its own pattern byte. -/
lemma writesOf_bodyEvents {p : Nat} (hp : p < VSITR_PASSES) (S : Nat) :
    writesOf p (bodyEvents S) =
      (chunkSizes S).map (fun w => List.replicate w (patternAt p)) := by
  unfold bodyEvents
  rw [writesOf_cons_stat, writesOf_flatten, List.map_map]
  have hcomp : (writesOf p ∘ fun q => passBody q (patternAt q) S) =
      fun q => writesOf p (passBody q (patternAt q) S) := rfl
  rw [hcomp]
  rw [flatten_map_range_single p _
    (fun q hq => writesOf_passBody_ne hq (patternAt q) S) VSITR_PASSES hp]
  exact writesOf_passBody_self p (patternAt p) S

/-- The final `unlink` contributes no writes. -/
lemma writesOf_eraseEvents {p : Nat} (hp : p < VSITR_PASSES) (S : Nat) :
    writesOf p (eraseEvents S) =
      (chunkSizes S).map (fun w => List.replicate w (patternAt p)) := by
  unfold eraseEvents
  rw [writesOf_append, writesOf_bodyEvents hp]
  simp [writesOf]

/-- On an existing regular file, the all-success run returns `True`
having executed the complete operation sequence. -/
lemma secure_erase_allTrue_regular (S : Nat) :
    secure_erase (PathStatus.regular S) allTrue = (true, eraseEvents S) := by
  unfold secure_erase
  simp [pathExists, pathIsFile, statSize, runOps_allTrue]

/-- The `threading.Timer` object held in `self.timer`: its scheduled
deadline and whether it is still alive (i.e. `Timer.cancel()` has not
been called on it). -/
structure TimerObj where
  deadline : Nat
  alive : Bool
deriving DecidableEq, Repr

/-- The fields of an `AutoEraseTimer` (lines 121-127): the construction
delay, the optional `threading.Timer`, whether the single non-reentrant
`threading.Lock` is currently held by the executing thread, and the
`cancelled` flag. -/
structure AutoEraseTimer where
  delay_seconds : Nat
  timer : Option TimerObj
  lockHeld : Bool
  cancelled : Bool
deriving DecidableEq, Repr

/-- `with self.lock:` entry on a non-reentrant `threading.Lock`: blocks
forever (`none`) when the executing thread already holds the lock, since
no other code path ever releases a lock it did not acquire. -/
def acquire (s : AutoEraseTimer) : Option AutoEraseTimer :=
  if s.lockHeld then none else some { s with lockHeld := true }

/-- Leaving the `with self.lock:` block. -/
def releaseLock (s : AutoEraseTimer) : AutoEraseTimer :=
  { s with lockHeld := false }

/-- `self.timer.cancel()` on the held `threading.Timer` object: marks it
no longer alive (best-effort descheduling); `self.timer` keeps pointing
at it. -/
def timerCancel : Option TimerObj → Option TimerObj
  | some t => some { t with alive := false }
  | none => none

/-- `AutoEraseTimer.start` (lines 129-139): under the lock, cancel any
existing timer object, clear `cancelled`, and arm a fresh
`threading.Timer` with the full construction delay from the current
time.  Result `none` means the caller blocks forever acquiring the
lock. -/
def timerStart (now : Nat) (s : AutoEraseTimer) : Option AutoEraseTimer :=
  (acquire s).map fun s1 =>
    let s2 := { s1 with timer := timerCancel s1.timer }
    let s3 := { s2 with
      cancelled := false,
      timer := some { deadline := now + s2.delay_seconds, alive := true } }
    releaseLock s3

/-- `AutoEraseTimer.reset` (lines 141-146): under the lock, if not
cancelled and a timer object is present, cancel it and call
`self.start()` — which tries to acquire the same non-reentrant lock
again. -/
def timerReset (now : Nat) (s : AutoEraseTimer) : Option AutoEraseTimer :=
  (acquire s).bind fun s1 =>
    if s1.cancelled = false ∧ s1.timer.isSome then
      let s2 := { s1 with timer := timerCancel s1.timer }
      (timerStart now s2).map releaseLock
    else
      some (releaseLock s1)

/-- `AutoEraseTimer.cancel` (lines 148-153): under the lock, set
`cancelled`, cancel and drop the timer object. -/
def timerCancelMethod (s : AutoEraseTimer) : Option AutoEraseTimer :=
  (acquire s).map fun s1 =>
    let s2 := { s1 with cancelled := true }
    let s3 :=
      if s2.timer.isSome then
        let s2a := { s2 with timer := timerCancel s2.timer }
        { s2a with timer := none }
      else s2
    releaseLock s3

/-- `AutoEraseTimer._erase_callback` (lines 155-161): under the lock,
return without erasing if `cancelled`, otherwise invoke
`SecureFileEraser.secure_erase`.  The boolean records whether the
erasure was invoked. -/
def eraseCallback (s : AutoEraseTimer) : Option (AutoEraseTimer × Bool) :=
  (acquire s).map fun s1 =>
    if s1.cancelled then (releaseLock s1, false)
    else (releaseLock s1, true)

/-- Observable events of the cancel-vs-expiry race of claim C3. -/
inductive Ev3 where
  | eraseInvoked : Ev3
  | cancelReturned : Ev3
deriving DecidableEq, Repr

/-- The possible serializations of a `cancel()` call against the
timer's expiry callback.  Both method bodies run entirely inside
`with self.lock:`, so the single lock admits exactly two orders of the
two critical sections; `callbackNever` covers the case in which
`Timer.cancel()` descheduled the callback before it started. -/
inductive Sched where
  | callbackFirst : Sched
  | cancelFirst : Sched
  | callbackNever : Sched
deriving DecidableEq, Repr

/-- The event sequence produced by one interleaving of `cancel()` with
the expiry callback: `eraseInvoked` when the callback reached
`SecureFileEraser.secure_erase`, `cancelReturned` when `cancel()`
returned. -/
def runRace : Sched → AutoEraseTimer → List Ev3
  | Sched.callbackFirst, s =>
    match eraseCallback s with
    | some (s1, fired) =>
      (if fired then [Ev3.eraseInvoked] else []) ++
        (match timerCancelMethod s1 with
         | some _ => [Ev3.cancelReturned]
         | none => [])
    | none => []
  | Sched.cancelFirst, s =>
    match timerCancelMethod s with
    | some s1 =>
      Ev3.cancelReturned ::
        (match eraseCallback s1 with
         | some (_, fired) => if fired then [Ev3.eraseInvoked] else []
         | none => [])
    | none => []
  | Sched.callbackNever, s =>
    match timerCancelMethod s with
    | some _ => [Ev3.cancelReturned]
    | none => []

/-- Holds when no `eraseInvoked` event occurs after a `cancelReturned`
event. -/
def noEraseAfterCancel : List Ev3 → Bool
  | [] => true
  | Ev3.cancelReturned :: rest =>
    rest.all fun e =>
      match e with
      | Ev3.eraseInvoked => false
      | _ => true
  | _ :: rest => noEraseAfterCancel rest

/-- `e` is a write event of pass `p`. -/
def isWriteOfPass (p : Nat) (e : Ev) : Prop := ∃ d, e = Ev.write p d

/-- An oracle failing exactly the `k`-th operation. -/
def failAt (k : Nat) : Nat → Bool := fun n => decide (n ≠ k)

/-- The executed trace of any `secure_erase` call is sorted by rank. -/
lemma pairwise_rank_trace (st : PathStatus) (oracle : Nat → Bool) :
    List.Pairwise (fun a b => evRank a ≤ evRank b) (secure_erase st oracle).2 := by
  unfold secure_erase
  by_cases h : (pathExists st && pathIsFile st) = true
  · rw [if_pos h]
    exact List.Pairwise.sublist (runOps_sublist oracle _ 0)
      (pairwise_rank_eraseEvents _)
  · rw [if_neg h]
    exact List.Pairwise.nil

/-- In a rank-sorted trace, an event of strictly smaller rank occurs
strictly earlier. -/
lemma fin_lt_of_rank_lt {tr : List Ev}
    (hpw : List.Pairwise (fun x y => evRank x ≤ evRank y) tr)
    (a b : Fin tr.length) (h : evRank (tr.get a) < evRank (tr.get b)) : a < b := by
  rcases lt_trichotomy a b with hlt | heq | hgt
  · exact hlt
  · rw [heq] at h
    omega
  · have := (List.pairwise_iff_get.mp hpw) b a hgt
    omega

/-- `unlink` is not among the pass-body operations. -/
lemma unlink_not_mem_bodyEvents (S : Nat) : Ev.unlink ∉ bodyEvents S := by
  intro h
  have hle := evRank_le_of_mem_bodyEvents h
  simp only [evRank] at hle
  omega

/-- Every pass's `fsync` occurs among the pass-body operations. -/
lemma fsync_mem_bodyEvents {p : Nat} (hp : p < VSITR_PASSES) (S : Nat) :
    Ev.fsync p ∈ bodyEvents S := by
  unfold bodyEvents
  apply List.mem_cons_of_mem
  rw [List.mem_flatten]
  refine ⟨passBody p (patternAt p) S, ?_, ?_⟩
  · exact List.mem_map.mpr ⟨p, List.mem_range.mpr hp, rfl⟩
  · simp [passBody]

/-- The size is measured exactly once: one `stat` in the complete run. -/
lemma count_stat_eraseEvents (S : Nat) : (eraseEvents S).count Ev.stat = 1 := by
  unfold eraseEvents bodyEvents
  rw [List.count_append, List.count_cons]
  have hflat : (((List.range VSITR_PASSES).map
      fun p => passBody p (patternAt p) S).flatten).count Ev.stat = 0 := by
    rw [List.count_eq_zero]
    intro hmem
    rw [List.mem_flatten] at hmem
    obtain ⟨l, hl, hel⟩ := hmem
    simp only [List.mem_map] at hl
    obtain ⟨p, _, rfl⟩ := hl
    have hlow := (evRank_mem_passBody hel).1
    simp only [evRank] at hlow
    omega
  rw [hflat]
  simp

/-- Claim C1: for every file of size S ≥ 0, `secure_erase` performs
exactly 7 overwrite passes in the fixed pattern order
[0x00, 0xFF, 0x00, 0xFF, 0x00, 0xFF, 0xAA]; pass p writes exactly S
bytes, all equal to that pass's single pattern byte (its write data
concatenates to `List.replicate S (patternAt p)`); no pass beyond the
seventh performs any write; and the size is measured exactly once at
entry (a single `stat`) and used unchanged by every pass. -/
theorem claim_C1_seven_pass_pattern :
    VSITR_PASSES = 7 ∧
    VSITR_PATTERNS = [0x00, 0xFF, 0x00, 0xFF, 0x00, 0xFF, 0xAA] ∧
    (∀ S p, p < VSITR_PASSES →
      (writesOf p (secure_erase (PathStatus.regular S) allTrue).2).flatten =
        List.replicate S (patternAt p)) ∧
    (∀ S p, VSITR_PASSES ≤ p →
      writesOf p (secure_erase (PathStatus.regular S) allTrue).2 = []) ∧
    (∀ S, (secure_erase (PathStatus.regular S) allTrue).2.count Ev.stat = 1) := by
  refine ⟨rfl, rfl, ?_, ?_, ?_⟩
  · intro S p hp
    rw [secure_erase_allTrue_regular]
    rw [show ((true, eraseEvents S) : Bool × List Ev).2 = eraseEvents S from rfl]
    rw [writesOf_eraseEvents hp]
    exact chunkSizes_flatten_replicate (patternAt p) S
  · intro S p hp
    rw [secure_erase_allTrue_regular]
    rw [show ((true, eraseEvents S) : Bool × List Ev).2 = eraseEvents S from rfl]
    unfold eraseEvents
    rw [writesOf_append]
    have h1 : writesOf p (bodyEvents S) = [] := by
      unfold bodyEvents
      rw [writesOf_cons_stat, writesOf_flatten, List.map_map]
      rw [List.flatten_eq_nil_iff]
      intro l hl
      simp only [List.mem_map, List.mem_range, Function.comp] at hl
      obtain ⟨q, hq, rfl⟩ := hl
      exact writesOf_passBody_ne (by omega) (patternAt q) S
    rw [h1]
    rfl
  · intro S
    rw [secure_erase_allTrue_regular]
    exact count_stat_eraseEvents S

/-- Claim C1 witness: at S = 3, the seventh pass (index 6) writes
exactly three bytes 0xAA. -/
theorem claim_C1_witness :
    (writesOf 6 (secure_erase (PathStatus.regular 3) allTrue).2).flatten =
      List.replicate 3 170 := by
  have h := claim_C1_seven_pass_pattern.2.2.1 3 6 (by decide)
  simpa [patternAt, VSITR_PATTERNS] using h

/-- Claim C2: whenever `secure_erase` reports success, the path no
longer exists: the trace consists of all pass bodies followed by the
final `unlink` (so the file is unlinked only after all 7 passes, whose
syncs all precede it), `unlink` occurs nowhere among the pass bodies,
and the successful unlink removes the path. -/
theorem claim_C2_success_implies_gone :
    ∀ (st : PathStatus) (oracle : Nat → Bool),
      (secure_erase st oracle).1 = true →
        existsAfter st oracle = false ∧
        (secure_erase st oracle).2 = bodyEvents (statSize st) ++ [Ev.unlink] ∧
        Ev.unlink ∉ bodyEvents (statSize st) ∧
        ∀ p, p < VSITR_PASSES → Ev.fsync p ∈ bodyEvents (statSize st) := by
  intro st oracle hsucc
  have htr : (secure_erase st oracle).2 = eraseEvents (statSize st) := by
    unfold secure_erase at hsucc ⊢
    by_cases h : (pathExists st && pathIsFile st) = true
    · rw [if_pos h] at hsucc ⊢
      exact runOps_true_snd oracle _ 0 hsucc
    · rw [if_neg h] at hsucc
      exact absurd hsucc (by simp)
  have hmem : Ev.unlink ∈ (secure_erase st oracle).2 := by
    rw [htr]
    unfold eraseEvents
    simp
  refine ⟨?_, htr, unlink_not_mem_bodyEvents _, fun p hp => fsync_mem_bodyEvents hp _⟩
  unfold existsAfter
  simp [hmem]

/-- Claim C2 witness: the empty regular file, all operations
succeeding. -/
theorem claim_C2_witness :
    (secure_erase (PathStatus.regular 0) allTrue).1 = true ∧
    existsAfter (PathStatus.regular 0) allTrue = false :=
  ⟨by decide, (claim_C2_success_implies_gone (PathStatus.regular 0) allTrue (by decide)).1⟩

/-- Claim C9: `secure_erase` is total at its interface — in the model
the result is always a `Bool` (the source wraps the whole body in
`try/except Exception: return False`, and every I/O error raised by
stat, open, write, flush, fsync or unlink is an `Exception`) — and it
returns `True` exactly when the path resolves to a regular file and
every operation of the run, the seven passes and the final unlink
included, succeeds. -/
theorem claim_C9_total_bool_interface :
    ∀ (st : PathStatus) (oracle : Nat → Bool),
      (secure_erase st oracle).1 = true ↔
        (pathExists st = true ∧ pathIsFile st = true ∧
          ∀ n, n < (eraseEvents (statSize st)).length → oracle n = true) := by
  intro st oracle
  unfold secure_erase
  by_cases h : (pathExists st && pathIsFile st) = true
  · rw [if_pos h]
    rw [runOps_fst_true_iff]
    simp only [Bool.and_eq_true] at h
    constructor
    · intro hall
      refine ⟨h.1, h.2, fun n hn => ?_⟩
      have := hall n hn
      simpa using this
    · rintro ⟨-, -, hall⟩ n hn
      simpa using hall n hn
  · rw [if_neg h]
    simp only [Bool.and_eq_true] at h
    constructor
    · intro hfalse
      exact absurd hfalse (by simp)
    · rintro ⟨h1, h2, -⟩
      exact absurd ⟨h1, h2⟩ h

/-- Claim C9 witness: a one-byte regular file with every operation
succeeding yields `True`. -/
theorem claim_C9_witness :
    (secure_erase (PathStatus.regular 1) allTrue).1 = true :=
  (claim_C9_total_bool_interface (PathStatus.regular 1) allTrue).mpr
    ⟨rfl, rfl, fun _ _ => rfl⟩

/-- Claim C6 counterexample: a symbolic link to an existing regular
file is NOT rejected.  `Path.exists()` and `Path.is_file()` both follow
symlinks, so the guard of line 81 passes, the erase proceeds (a write
is performed) and reports success — refuting the claim that every
symlink input fails with zero writes. -/
theorem claim_C6_counterexample :
    pathExists (PathStatus.symlinkToRegular 1) = true ∧
    pathIsFile (PathStatus.symlinkToRegular 1) = true ∧
    (secure_erase (PathStatus.symlinkToRegular 1) allTrue).1 = true ∧
    Ev.write 0 (List.replicate 1 0) ∈
      (secure_erase (PathStatus.symlinkToRegular 1) allTrue).2 := by
  decide

/-- Claim C6 as amended: for every path that does not resolve — after
following symbolic links — to an existing regular file (a non-existent
path, a directory, a broken symlink, or a symlink to a directory),
`secure_erase` fails by returning `False` and performs no I/O at all;
a symlink to a regular file, however, is followed and erased rather
than rejected. -/
theorem claim_C6_amended_reject_non_regular :
    ∀ (st : PathStatus) (oracle : Nat → Bool),
      (pathExists st = false ∨ pathIsFile st = false) →
        (secure_erase st oracle).1 = false ∧ (secure_erase st oracle).2 = [] := by
  intro st oracle h
  have hcond : (pathExists st && pathIsFile st) = false := by
    rcases h with h | h <;> simp [h]
  unfold secure_erase
  rw [hcond]
  exact ⟨rfl, rfl⟩

/-- Claim C6 witness: a directory is rejected with no I/O. -/
theorem claim_C6_witness :
    (secure_erase PathStatus.directory allTrue).1 = false ∧
    (secure_erase PathStatus.directory allTrue).2 = [] :=
  claim_C6_amended_reject_non_regular PathStatus.directory allTrue (Or.inr rfl)

/-- Claim C7: in every `secure_erase` call (any path, any oracle), the
flush and the durable sync of pass i complete before any write of pass
i+1 begins; every write of pass i precedes pass i's sync; and the sync
is performed exactly once per pass in the complete operation
sequence. -/
theorem claim_C7_sync_ordering (st : PathStatus) (oracle : Nat → Bool) :
    (∀ i, i + 1 < VSITR_PASSES →
      ∀ (a b : Fin (secure_erase st oracle).2.length),
        ((secure_erase st oracle).2.get a = Ev.flush i ∨
          (secure_erase st oracle).2.get a = Ev.fsync i) →
        isWriteOfPass (i + 1) ((secure_erase st oracle).2.get b) →
        a < b) ∧
    (∀ i, i < VSITR_PASSES →
      ∀ (a b : Fin (secure_erase st oracle).2.length),
        isWriteOfPass i ((secure_erase st oracle).2.get a) →
        (secure_erase st oracle).2.get b = Ev.fsync i →
        a < b) ∧
    (∀ i, i < VSITR_PASSES →
      (eraseEvents (statSize st)).count (Ev.fsync i) = 1) := by
  refine ⟨?_, ?_, fun i hi => count_fsync_eraseEvents hi _⟩
  · intro i _ a b ha hb
    obtain ⟨d, hd⟩ := hb
    apply fin_lt_of_rank_lt (pairwise_rank_trace st oracle)
    rw [hd]
    rcases ha with ha | ha <;> rw [ha] <;> simp only [evRank] <;> omega
  · intro i _ a b ha hb
    obtain ⟨d, hd⟩ := ha
    apply fin_lt_of_rank_lt (pairwise_rank_trace st oracle)
    rw [hd, hb]
    simp only [evRank]
    omega

/-- Claim C7 witness: pass 0 of a one-byte file syncs exactly once. -/
theorem claim_C7_witness :
    (eraseEvents (statSize (PathStatus.regular 1))).count (Ev.fsync 0) = 1 :=
  (claim_C7_sync_ordering (PathStatus.regular 1) allTrue).2.2 0 (by decide)

/-- Claim C8 counterexample: the caller-visible result of `secure_erase`
is the bare boolean `False` whether the failure happens in pass 0
(operation 1, the open of pass 0) or in pass 1 (operation 5, the open
of pass 1) — the two runs return identical values, so no `IoWriteFailed`
error carrying the failing pass index propagates to the caller. -/
theorem claim_C8_counterexample :
    (secure_erase (PathStatus.regular 1) (failAt 1)).1 =
      (secure_erase (PathStatus.regular 1) (failAt 5)).1 ∧
    (secure_erase (PathStatus.regular 1) (failAt 1)).1 = false ∧
    evPassOf ((eraseEvents 1).getD 1 Ev.stat) = some 0 ∧
    evPassOf ((eraseEvents 1).getD 5 Ev.stat) = some 1 := by
  decide

/-- Claim C8 as amended: if the first failing operation of an erase run
belongs to pass k, the call aborts — no write of any pass after k is
performed — and the failure reaches the caller only as the boolean
`False` (the `except Exception` handler of lines 117-119), which carries
no pass index. -/
theorem claim_C8_amended_abort_on_failure :
    ∀ (S : Nat) (oracle : Nat → Bool) (j k : Nat)
      (hj : j < (eraseEvents S).length),
      (∀ m, m < j → oracle m = true) → oracle j = false →
      evPassOf ((eraseEvents S).get ⟨j, hj⟩) = some k →
      (secure_erase (PathStatus.regular S) oracle).1 = false ∧
      ∀ e ∈ (secure_erase (PathStatus.regular S) oracle).2,
        ∀ q d, e = Ev.write q d → q ≤ k := by
  intro S oracle j k hj hall hfail hpass
  have hrun : runOps oracle (eraseEvents S) 0 = (false, (eraseEvents S).take j) := by
    apply runOps_fail_eq oracle _ 0 j hj
    · intro m hm
      simpa using hall m hm
    · simpa using hfail
  have hsec : secure_erase (PathStatus.regular S) oracle =
      (false, (eraseEvents S).take j) := by
    unfold secure_erase
    simpa [pathExists, pathIsFile, statSize] using hrun
  constructor
  · rw [hsec]
  · intro e he q d hed
    rw [hsec] at he
    rw [List.mem_take_iff_getElem] at he
    obtain ⟨i, hi, hie⟩ := he
    have hij : i < j := lt_of_lt_of_le hi (min_le_left _ _)
    have hilen : i < (eraseEvents S).length := lt_of_lt_of_le hi (min_le_right _ _)
    have hpw := List.pairwise_iff_getElem.mp (pairwise_rank_eraseEvents S) i j hilen hj hij
    have hgj : (eraseEvents S).get ⟨j, hj⟩ = (eraseEvents S)[j] := rfl
    rw [hgj] at hpass
    have hrk : evRank ((eraseEvents S)[j]) ≤ 10 * k + 14 := (evPassOf_rank hpass).2
    rw [hie, hed] at hpw
    have hwr : evRank (Ev.write q d) = 10 * q + 12 := rfl
    omega

/-- Claim C8 witness: with the oracle failing operation 5 (the open of
pass 1) on a one-byte file, the call returns `False`. -/
theorem claim_C8_witness :
    (secure_erase (PathStatus.regular 1) (failAt 5)).1 = false :=
  (claim_C8_amended_abort_on_failure 1 (failAt 5) 5 1 (by decide)
    (by decide) (by decide) (by decide)).1

/-- A timer as constructed and then armed: delay 30, a live pending
timer object, lock free, not cancelled. -/
def armedTimer : AutoEraseTimer :=
  { delay_seconds := 30, timer := some { deadline := 30, alive := true },
    lockHeld := false, cancelled := false }

/-- A freshly constructed `AutoEraseTimer(filepath, 30)` (lines
122-127): no timer object yet, lock free, not cancelled. -/
def freshTimer : AutoEraseTimer :=
  { delay_seconds := 30, timer := none, lockHeld := false, cancelled := false }

/-- Claim C3: in every serialization of a `cancel()` call against the
timer's expiry callback — both bodies run inside `with self.lock:`, so
the lock admits exactly the orders modelled by `Sched` — no invocation
of `SecureFileEraser.secure_erase` happens after `cancel()` has
returned: the cancelled-flag check and the fire decision sit in the
same lock-guarded critical section (lines 156-161), so a callback
serialized after `cancel()` observes `cancelled = True` and returns
without erasing. -/
theorem claim_C3_cancel_wins_race :
    ∀ (sched : Sched) (s : AutoEraseTimer), s.lockHeld = false →
      noEraseAfterCancel (runRace sched s) = true := by
  intro sched s hlock
  obtain ⟨d, t, lh, c⟩ := s
  simp only at hlock
  subst hlock
  cases sched <;> cases c <;> cases t <;> rfl

/-- Claim C3 witness: the armed timer, callback serialized first. -/
theorem claim_C3_witness :
    noEraseAfterCancel (runRace Sched.callbackFirst armedTimer) = true :=
  claim_C3_cancel_wins_race Sched.callbackFirst armedTimer rfl

/-- Claim C4 counterexample: `Cancelled` is not terminal for `start()`.
Arm a fresh timer, cancel it, then call `start()` again: `start`
unconditionally clears the `cancelled` flag (line 134) and arms a brand
new countdown (deadline 70), and the expiry callback of the resulting
state invokes the erasure — refuting the claim that `start()` on a
Cancelled timer arms no new countdown and can cause no new erasure. -/
theorem claim_C4_counterexample :
    ((timerStart 0 freshTimer).bind timerCancelMethod) =
      some { delay_seconds := 30, timer := none, lockHeld := false,
             cancelled := true } ∧
    (((timerStart 0 freshTimer).bind timerCancelMethod).bind (timerStart 40)) =
      some { delay_seconds := 30,
             timer := some { deadline := 70, alive := true },
             lockHeld := false, cancelled := false } ∧
    ((((timerStart 0 freshTimer).bind timerCancelMethod).bind
        (timerStart 40)).bind eraseCallback).map Prod.snd = some true := by
  decide

/-- Claim C4 as amended: only `reset()` on a Cancelled timer is a no-op
(no exception, no new countdown, no new erasure — the state is returned
unchanged, because line 143 tests `not self.cancelled`).  `start()` is
never a no-op: on a Fired or Cancelled timer it arms a fresh full
countdown with `cancelled := False`.  And `reset()` on a Fired timer
(not cancelled, timer object still present, since `_erase_callback`
clears neither field) does not return at all: it self-deadlocks calling
`start()` under the held non-reentrant lock. -/
theorem claim_C4_amended_terminal_states :
    ∀ (now : Nat) (s : AutoEraseTimer), s.lockHeld = false →
      (s.cancelled = true → timerReset now s = some s) ∧
      (s.cancelled = false → s.timer.isSome = true → timerReset now s = none) ∧
      timerStart now s =
        some { delay_seconds := s.delay_seconds,
               timer := some { deadline := now + s.delay_seconds, alive := true },
               lockHeld := false, cancelled := false } := by
  intro now s hlock
  obtain ⟨d, t, lh, c⟩ := s
  simp only at hlock
  subst hlock
  refine ⟨?_, ?_, ?_⟩
  · intro hc
    simp only at hc
    subst hc
    cases t <;> rfl
  · intro hc ht
    simp only at hc
    subst hc
    cases t with
    | none => simp at ht
    | some tt => rfl
  · cases t <;> rfl

/-- Claim C4 witness: `reset()` on the post-cancel state is a no-op. -/
theorem claim_C4_witness :
    timerReset 40 { delay_seconds := 30, timer := none, lockHeld := false,
                    cancelled := true } =
      some { delay_seconds := 30, timer := none, lockHeld := false,
             cancelled := true } :=
  (claim_C4_amended_terminal_states 40
    { delay_seconds := 30, timer := none, lockHeld := false, cancelled := true }
    rfl).1 rfl

/-- Claim C5: the code cannot restart the countdown — `reset()` on an
armed, non-cancelled timer (here: delay 30, armed at t = 0, reset
called at t = 15) never returns.  `reset` holds the non-reentrant
`threading.Lock` (line 142) and calls `self.start()` (line 145), which
blocks forever re-acquiring the same lock (line 130); the `Timer
reset` message of line 146 is unreachable and no fresh countdown is
armed. -/
theorem claim_C5_reset_never_rearms : timerReset 15 armedTimer = none := by
  decide

/-- Claim C10: for every armed, not-cancelled timer whose lock is free
when `reset()` is entered, the call never returns: `reset()` acquires
the non-reentrant lock, then invokes `start()`, which blocks forever
attempting to acquire the same lock. -/
theorem claim_C10_reset_self_deadlock :
    ∀ (now : Nat) (s : AutoEraseTimer), s.lockHeld = false →
      s.cancelled = false → s.timer.isSome = true →
      timerReset now s = none := by
  intro now s h1 h2 h3
  obtain ⟨d, t, lh, c⟩ := s
  simp only at h1 h2 h3
  subst h1
  subst h2
  cases t with
  | none => simp at h3
  | some tt => rfl

/-- Claim C10 witness: the armed timer at t = 15. -/
theorem claim_C10_witness : timerReset 15 armedTimer = none :=
  claim_C10_reset_self_deadlock 15 armedTimer rfl rfl rfl
